import Mathlib

/-!
Verification of the chunking and retrieval/reranking core of the
bible-rag-chatbot repository, as a shallow embedding in Lean 4.

Conventions of the embedding:
* Python strings are sequences of code points, modelled as `List Char`.
* Python floats are modelled as exact rationals (`ℚ`) where the source
  performs only field arithmetic and comparisons, and as reals (`ℝ`)
  where the source calls `math.exp`.
* External capabilities (the spaCy pipeline, the `re` regex engine on the
  opaque mode-pattern strings, the ChromaDB collection) are parameters of
  the embedded functions, mirroring the spec's treatment of them as
  external collaborators.
-/

namespace BibleRag

/-- Number of words of a Python string as computed by `str.split()`:
the number of maximal runs of non-whitespace characters. -/
def pyWordCount (l : List Char) : Nat :=
  (l.foldl
    (fun (st : Bool × Nat) c =>
      if c.isWhitespace then (false, st.2)
      else if st.1 then (true, st.2) else (true, st.2 + 1))
    (false, 0)).2

/-- Python `" ".join(parts)` on char-list strings. -/
def joinSpace : List (List Char) → List Char
  | [] => []
  | [t] => t
  | t :: ts => t ++ ' ' :: joinSpace ts

/-- Python slicing `l[s:e]` (for `s ≤ e ≤ len l`). -/
def pySlice (l : List Char) (s e : Nat) : List Char :=
  (l.drop s).take (e - s)

/-- Python `l[-n:]` for `n > 0`: the last `min n (length l)` elements. -/
def takeLast (n : Nat) (l : List α) : List α :=
  l.drop (l.length - n)

/-- A verse record as loaded from ingestion (`verses: list[dict]`). -/
structure Verse where
  book : List Char
  chapter : Nat
  verse : Nat
  text : List Char
  testament : List Char
  section' : Option (List Char)
  deriving DecidableEq, Repr, Inhabited

/-- Word count of a verse's text: `len(verse["text"].split())`. -/
def verseWC (v : Verse) : Nat := pyWordCount v.text

/-- Total word count of a list of verses:
`sum(len(v["text"].split()) for v in vs)`. -/
def sumWC (vs : List Verse) : Nat := (vs.map verseWC).sum

/-- Chunk metadata, built from the first and last verse of a chunk. -/
structure ChunkMeta where
  book : List Char
  chapter_start : Nat
  verse_start : Nat
  chapter_end : Nat
  verse_end : Nat
  testament : List Char
  section' : Option (List Char)
  deriving DecidableEq, Repr, Inhabited

/-- The metadata dictionary built in `chunking.py` from `current_chunk`. -/
def mkMeta (cur : List Verse) : ChunkMeta :=
  { book := (cur.headI).book
    chapter_start := (cur.headI).chapter
    verse_start := (cur.headI).verse
    chapter_end := (cur.getLastI).chapter
    verse_end := (cur.getLastI).verse
    testament := (cur.headI).testament
    section' := (cur.headI).section' }

/-- A chunk as produced by `chunk_verses_min_first`. -/
structure Chunk where
  text : List Char
  metadata : ChunkMeta
  deriving DecidableEq, Repr, Inhabited

/-- A `verse_indices` entry of `chunk_verses_min_first_with_indexing`. -/
structure VIdx where
  chapter : Nat
  verse : Nat
  start : Nat
  end' : Nat
  deriving DecidableEq, Repr, Inhabited

/-- A chunk as produced by `chunk_verses_min_first_with_indexing`. -/
structure ChunkIdx where
  text : List Char
  metadata : ChunkMeta
  verse_indices : List VIdx
  deriving DecidableEq, Repr, Inhabited

/-- The cursor loop of `chunk_verses_min_first_with_indexing`: for each
verse, `start = cursor`, `end = start + len(text)`, `cursor = end + 1`. -/
def mkVerseIndices : List Verse → Nat → List VIdx
  | [], _ => []
  | v :: rest, cursor =>
    { chapter := v.chapter
      verse := v.verse
      start := cursor
      end' := cursor + v.text.length } :: mkVerseIndices rest (cursor + v.text.length + 1)

/-- Chunk builder of `chunk_verses_min_first` (text plus metadata). -/
def mkChunk (cur : List Verse) : Chunk :=
  { text := joinSpace (cur.map Verse.text), metadata := mkMeta cur }

/-- Chunk builder of `chunk_verses_min_first_with_indexing`
(text, metadata and verse-level character indices). -/
def mkChunkIdx (cur : List Verse) : ChunkIdx :=
  { text := joinSpace (cur.map Verse.text)
    metadata := mkMeta cur
    verse_indices := mkVerseIndices cur 0 }

/-- The shared accumulation loop of `chunk_verses_min_first` and
`chunk_verses_min_first_with_indexing` (both iterate identically over the
verses, differing only in how an emitted `current_chunk` is turned into a
chunk record, abstracted here as `emit`): append the verse, add its word
count, and when `current_word_count >= min_words` emit a chunk and keep the
last `chunk_overlap` verses (re-summing their word count); after the loop,
emit any non-empty remainder as a final chunk. -/
def genLoop (emit : List Verse → α) (min_words chunk_overlap : Nat) :
    List Verse → List Verse → Nat → List α
  | [], cur, _ => if cur.isEmpty then [] else [emit cur]
  | v :: rest, cur, cwc =>
    let cur' := cur ++ [v]
    let cwc' := cwc + verseWC v
    if min_words ≤ cwc' then
      let cur'' := if 0 < chunk_overlap then takeLast chunk_overlap cur' else []
      let cwc'' := if 0 < chunk_overlap then sumWC cur'' else 0
      emit cur' :: genLoop emit min_words chunk_overlap rest cur'' cwc''
    else
      genLoop emit min_words chunk_overlap rest cur' cwc'

/-- The final accumulator state of the loop above: the `current_chunk`
left over after all verses are processed. -/
def genLoopState (min_words chunk_overlap : Nat) :
    List Verse → List Verse → Nat → List Verse
  | [], cur, _ => cur
  | v :: rest, cur, cwc =>
    let cur' := cur ++ [v]
    let cwc' := cwc + verseWC v
    if min_words ≤ cwc' then
      let cur'' := if 0 < chunk_overlap then takeLast chunk_overlap cur' else []
      let cwc'' := if 0 < chunk_overlap then sumWC cur'' else 0
      genLoopState min_words chunk_overlap rest cur'' cwc''
    else
      genLoopState min_words chunk_overlap rest cur' cwc'

/-- `chunk_verses_min_first(verses, min_words, chunk_overlap)` from
`preprocessing/chunking.py`. -/
def chunk_verses_min_first (verses : List Verse) (min_words chunk_overlap : Nat) :
    List Chunk :=
  genLoop mkChunk min_words chunk_overlap verses [] 0

/-- `chunk_verses_min_first_with_indexing(verses, min_words, chunk_overlap)`
from `preprocessing/chunking.py`. -/
def chunk_verses_min_first_with_indexing (verses : List Verse)
    (min_words chunk_overlap : Nat) : List ChunkIdx :=
  genLoop mkChunkIdx min_words chunk_overlap verses [] 0

/-! ## Query modes (`retrieval/query_modes.py`) -/

/-- Lowercasing of a Python string (`str.lower()`), ASCII fragment. -/
def toLowerL (l : List Char) : List Char := l.map Char.toLower

/-- Regex pattern heuristics for the `law` mode (opaque pattern strings;
the `re.search` engine is an external capability). -/
def LAW_PATTERNS : List String :=
  ["\\b(?:thou|ye|you|we|they|one)\\s+(?:shalt|shall|must|ought)\\b",
   "\\b(?:thou|ye|you|we|they|one)\\s+(?:shalt|shall)\\s+not\\b",
   "\\b(?:must|must\\s+not)\\b",
   "\\bdo\\s+not\\b",
   "\\bshall\\s+not\\b",
   "\\bcommand(?:ed|s|ment)?\\b",
   "\\bforbid(?:s|den)?\\b",
   "\\bprohibit(?:ed|s|ion)?\\b",
   "\\bunlawful\\b|\\bforbidden\\b",
   "\\bkeep(?:ing)?\\s+(?:the|my|his)\\s+(?:law|command(?:ments)?)\\b",
   "\\bobey(?:ed|s|ing)?\\b",
   "\\bobserv(?:e|ed|es|ing)\\b",
   "\\bit\\s+is\\s+(?:written|commanded|required)\\b"]

/-- Regex pattern heuristics for the `discourse` mode. -/
def DISCOURSE_PATTERNS : List String :=
  ["\\bwhat\\s+(?:does|did|do)\\b",
   "\\bwhat\\s+is\\b",
   "\\bwhat\\s+does\\s+.*\\s+mean\\b",
   "\\bwhat\\s+did\\s+.*\\s+mean\\b",
   "\\bwhy\\s+(?:did|does|do)\\b",
   "\\bhow\\s+(?:does|did|do)\\b",
   "\\bexplain(?:s|ed|ing)?\\b",
   "\\bteach(?:es|ing|ings)?\\b",
   "\\bmean(?:s|ing)?\\b",
   "\\b(?:jesus|christ|paul|peter|john)\\s+(?:said|says|teaches|taught|writes?)\\b",
   "\\bhe\\s+said\\b|\\bhe\\s+taught\\b",
   "\\bblessed\\s+are\\b",
   "\\bverily\\b|\\bverily,\\s+verily\\b",
   "\\bwoe unto\\b",
   "\\bbuild .* on the sand\\b",
   "\\bjesus said\\b"]

/-- Regex pattern heuristics for the `prophetic` mode. -/
def PROPHETIC_PATTERNS : List String :=
  ["\\bthus\\s+saith\\s+the\\s+lord\\b",
   "\\bsaith\\s+the\\s+lord\\b",
   "\\bthe\\s+days\\s+(?:are|will\\s+be|are\\s+coming)\\b",
   "\\bshall\\s+come\\s+to\\s+pass\\b",
   "\\bi\\s+will\\b",
   "\\bi\\s+will\\s+bring\\b",
   "\\bi\\s+will\\s+send\\b",
   "\\bwoe\\s+unto\\b",
   "\\brepent\\b|\\bturn\\s+ye\\b",
   "\\bvision\\b|\\bprophecy\\b|\\bprophet\\b"]

/-- Regex pattern heuristics for the `lookup` mode. -/
def LOOKUP_PATTERNS : List String :=
  ["\\bwhere\\s+(?:do|does|did|is|are)\\b",
   "\\bwhere\\s+in\\s+the\\s+bible\\b",
   "\\bwhich\\s+(?:book|chapter|verse)\\b",
   "\\bwhat\\s+(?:book|chapter|verse)\\b",
   "\\bappear(?:s|ed)?\\s+in\\b",
   "\\bfind\\b|\\blocated\\b",
   "\\bchapter\\s+\\d+\\b",
   "\\bverse\\s+\\d+\\b"]

/-- Regex pattern heuristics for the `wisdom` mode. -/
def WISDOM_PATTERNS : List String :=
  ["\\bwhat\\s+does\\s+the\\s+bible\\s+say\\s+about\\b",
   "\\bwhat\\s+is\\s+wisdom\\b",
   "\\bhow\\s+should\\s+(?:one|we|a\\s+person)\\b",
   "\\bmeaning\\s+of\\s+life\\b",
   "\\bhow\\s+to\\s+live\\b",
   "\\bwhat\\s+is\\s+the\\s+(?:right|good|proper|correct)\\b",
   "\\bblessed\\s+is\\b",
   "\\bhappy\\s+is\\b",
   "\\bfear\\s+of\\s+the\\s+lord\\b"]

/-- The mode-confidence dictionary returned by `detect_query_modes`. -/
structure QueryModes where
  law : ℚ
  discourse : ℚ
  prophetic : ℚ
  narrative : ℚ
  wisdom : ℚ
  lookup : ℚ
  open' : ℚ
  deriving DecidableEq, Repr

/-- A regex-search capability: `matcher p q` models `re.search(p, q) is not
None` for an opaque pattern string `p` over text `q`. -/
abbrev ReMatcher := String → List Char → Bool

/-- `_score_patterns(query, patterns)`: ratio of matched patterns,
capped at 1.0. -/
def score_patterns (matcher : ReMatcher) (query : List Char) (patterns : List String) : ℚ :=
  min 1 ((patterns.countP (fun p => matcher p query) : ℚ) / (patterns.length : ℚ))

/-- `detect_query_modes(query)` from `retrieval/query_modes.py`: scores the
five pattern families over the lowercased query, sets `narrative` to `0.3`
when the literal phrase `"what happened"` occurs, and `open` to
`max(0, 1 - max(modes.values()))`. -/
def detect_query_modes (matcher : ReMatcher) (query : List Char) : QueryModes :=
  let q := toLowerL query
  let law := score_patterns matcher q LAW_PATTERNS
  let discourse := score_patterns matcher q DISCOURSE_PATTERNS
  let prophetic := score_patterns matcher q PROPHETIC_PATTERNS
  let lookup := score_patterns matcher q LOOKUP_PATTERNS
  let wisdom := score_patterns matcher q WISDOM_PATTERNS
  let narrative : ℚ := if ("what happened".toList <:+: q) then 3/10 else 0
  let max_mode := max law (max discourse (max prophetic (max lookup (max wisdom narrative))))
  { law := law
    discourse := discourse
    prophetic := prophetic
    narrative := narrative
    wisdom := wisdom
    lookup := lookup
    open' := max 0 (1 - max_mode) }

/-! ## Alpha computation (`retrieval/reranking.py`) -/

/-- Configuration constant `ALPHA_BASELINE = 0.6`. -/
def ALPHA_BASELINE : ℚ := 6/10

/-- `compute_alpha_from_query_modes(query_modes)` from
`retrieval/reranking.py`: adjust the baseline by the mode confidences and
clamp the result with `min(0.90, max(0.1, alpha))`. -/
def compute_alpha_from_query_modes (m : QueryModes) : ℚ :=
  let alpha := ALPHA_BASELINE
  let alpha := alpha - 3/10 * m.law
  let alpha := alpha - 3/10 * m.lookup
  let alpha := alpha - 2/10 * m.prophetic
  let alpha := alpha + 2/10 * m.discourse
  let alpha := alpha + 1/10 * m.wisdom
  let alpha := alpha + 1/10 * m.open'
  min (9/10) (max (1/10) alpha)

/-! ## Phrase overlap and reranking (`retrieval/reranking.py`) -/

/-- A spaCy-pipeline capability for `extract_phrases`: `nlp t` models
`[token.lemma_ for token in nlp(t) if token.is_alpha]`. -/
abbrev NlpLemmas := List Char → List String

/-- `extract_phrases(text, min_words, max_words)` from
`retrieval/reranking.py`: all contiguous `n`-grams of the lemmatized
alphabetic tokens, for `n` from `min_words` to `max_words`, joined by a
single space. -/
def extract_phrases (nlp : NlpLemmas) (text : List Char) (min_words max_words : Nat) :
    List String :=
  let tokens := nlp (toLowerL text)
  ((List.range' min_words (max_words + 1 - min_words)).map (fun n =>
    (List.range (tokens.length + 1 - n)).map (fun i =>
      " ".intercalate ((tokens.drop i).take n)))).flatten

/-- Number of words of a Python string (`len(p.split())`). -/
def pyWordCountS (p : String) : Nat := pyWordCount p.toList

/-- `compute_phrase_overlap(query, chunk_text, max_words, k)` from
`retrieval/reranking.py`: overlap ratio of the phrase sets with an
exponential bump; short-circuits to 0.0 when either phrase set is empty. -/
noncomputable def compute_phrase_overlap (nlp : NlpLemmas)
    (query chunk_text : List Char) (max_words : Nat) (k : ℝ) : ℝ :=
  let query_phrases := (extract_phrases nlp (toLowerL query) 2 5).toFinset
  let chunk_phrases := (extract_phrases nlp (toLowerL chunk_text) 2 5).toFinset
  if query_phrases = ∅ ∨ chunk_phrases = ∅ then 0
  else
    let overlap := query_phrases ∩ chunk_phrases
    let raw_score : ℝ := (overlap.card : ℝ) / (min query_phrases.card chunk_phrases.card : ℝ)
    let max_phrase_len : Nat := overlap.sup pyWordCountS
    let length_bonus : ℝ := (max_phrase_len : ℝ) / (max_words : ℝ)
    let combined := (7/10 : ℝ) * raw_score + (3/10 : ℝ) * length_bonus
    let bumped := 1 - Real.exp (-k * combined)
    min 1 bumped

/-- Chunk metadata as stored in ChromaDB (`embed_chunks.py` coerces the
fields: ints become ints, `section` becomes a string). -/
structure ChromaMeta where
  book : List Char
  chapter_start : Int
  verse_start : Int
  chapter_end : Int
  verse_end : Int
  testament : List Char
  section' : List Char
  deriving DecidableEq, Repr, Inhabited

/-- A candidate dictionary flowing from `retrieve_chunks` to
`rerank_chunks`. `score` is absent (`None` here) when the key is missing
(`chunk.get("score", 0.0)`), and `re_rank_score` is absent until the
reranker writes it. -/
structure Cand where
  id : List Char
  text : List Char
  metadata : ChromaMeta
  score : Option ℝ
  re_rank_score : Option ℝ
  deriving Inhabited

/-- The blended score the reranker writes into each candidate:
`alpha * embedding_score + (1 - alpha) * phrase_score`. -/
noncomputable def reRankScoreOf (matcher : ReMatcher) (nlp : NlpLemmas)
    (query : List Char) (c : Cand) : ℝ :=
  let query_modes := detect_query_modes matcher query
  let alpha := compute_alpha_from_query_modes query_modes
  let phrase_score := compute_phrase_overlap nlp query c.text 5 3
  let embedding_score := c.score.getD 0
  (alpha : ℝ) * embedding_score + (1 - (alpha : ℝ)) * phrase_score

/-- Sorting key used by `sorted(filtered_chunks, key=lambda x:
x["re_rank_score"], reverse=True)`: the stored `re_rank_score` of the
candidate at position `i` of the (mutated) input list. -/
noncomputable def rrKey (l : List Cand) (i : Nat) : ℝ :=
  ((l.getD i default).re_rank_score).getD 0

/-- Stable descending insertion: `x` is placed before the first element
whose key is not larger, so among equal keys an earlier element stays
first. CPython's `sorted` is a stable sort; a stable sort descending by
key is uniquely determined, and this insertion realizes it. -/
noncomputable def insertDesc (key : Nat → ℝ) (x : Nat) : List Nat → List Nat
  | [] => [x]
  | y :: ys => if key y ≤ key x then x :: y :: ys else y :: insertDesc key x ys

/-- Stable sort, descending by key (the semantics of Python's
`sorted(..., key=..., reverse=True)` over list positions). -/
noncomputable def sortDesc (key : Nat → ℝ) (l : List Nat) : List Nat :=
  l.foldr (insertDesc key) []

/-- `rerank_chunks(chunks, query, min_score)` from `retrieval/reranking.py`,
as a heap-aware embedding. Python mutates each input dict in place
(`chunk["re_rank_score"] = ...`) and returns a sorted list of references to
those same dicts. The embedding returns the post-call state of the input
list (first component: each dict updated in place, order unchanged)
together with the returned list as positions into it (second component):
position `i` stands for the identity of the `i`-th input dict. -/
noncomputable def rerank_chunks (matcher : ReMatcher) (nlp : NlpLemmas)
    (chunks : List Cand) (query : List Char) (min_score : ℝ) :
    List Cand × List Nat :=
  let mutated := chunks.map (fun c =>
    { c with re_rank_score := some (reRankScoreOf matcher nlp query c) })
  let filtered := (List.range chunks.length).filter
    (fun i => decide (min_score ≤ rrKey mutated i))
  (mutated, sortDesc (rrKey mutated) filtered)

/-! ## Book/chapter extraction (`retrieval/preprocessing_query.py` and
`retrieval/preprocessing_retrieval.py`; the two files define textually
identical search logic, and only the first normalizes aliases). -/

/-- The `BIBLE_BOOKS` list: 66 canonical KJV book names followed by four
singular/plural alias variants, in source order (which is also the
alternation order of the compiled `BOOK_PATTERN`). -/
def BIBLE_BOOKS : List String :=
  ["Genesis","Exodus","Leviticus","Numbers","Deuteronomy",
   "Joshua","Judges","Ruth","1 Samuel","2 Samuel","1 Kings","2 Kings",
   "1 Chronicles","2 Chronicles","Ezra","Nehemiah","Esther","Job",
   "Psalms","Proverbs","Ecclesiastes","Song of Solomon","Isaiah",
   "Jeremiah","Lamentations","Ezekiel","Daniel","Hosea","Joel","Amos",
   "Obadiah","Jonah","Micah","Nahum","Habakkuk","Zephaniah","Haggai",
   "Zechariah","Malachi","Matthew","Mark","Luke","John","Acts","Romans",
   "1 Corinthians","2 Corinthians","Galatians","Ephesians","Philippians",
   "Colossians","1 Thessalonians","2 Thessalonians","1 Timothy","2 Timothy",
   "Titus","Philemon","Hebrews","James","1 Peter","2 Peter","1 John",
   "2 John","3 John","Jude","Revelation",
   "Psalm", "Proverb", "Lamentation", "Revelations"]

/-- The 66 canonical book names (the alias variants excluded). -/
def canonicalBooks : List String := BIBLE_BOOKS.take 66

/-- Word character of the regex `\b` boundary (`\w`), ASCII fragment. -/
def isWordChar (c : Char) : Bool := c.isAlphanum || c = '_'

/-- Does alternation branch `b` of `BOOK_PATTERN` match (case-insensitively,
with `\b` boundaries on both sides) at position `p` of `q`? If so, return
`group(0)`: the matched slice of `q` in its original casing. -/
def tryBookAt (q : List Char) (p : Nat) (b : String) : Option (List Char) :=
  let bl := b.toList
  let seg := (q.drop p).take bl.length
  if toLowerL seg = toLowerL bl
      ∧ (p = 0 ∨ ¬ isWordChar (q.getD (p - 1) ' '))
      ∧ (p + bl.length = q.length ∨ ¬ isWordChar (q.getD (p + bl.length) ' '))
  then some seg else none

/-- `BOOK_PATTERN.search(query)`: the leftmost position where some
alternation branch matches; branches are tried in list order, and a branch
whose trailing `\b` fails backtracks to the next. Returns the match
position and `group(0)`. -/
def searchBook (q : List Char) : Option (Nat × List Char) :=
  (List.range q.length).findSome? (fun p =>
    (BIBLE_BOOKS.findSome? (tryBookAt q p)).map (fun m => (p, m)))

/-- Python `str.strip()`: drop leading and trailing whitespace. -/
def pyStrip (l : List Char) : List Char :=
  ((l.dropWhile Char.isWhitespace).reverse.dropWhile Char.isWhitespace).reverse

/-- Numeric value of a digit string (`int(...)`). -/
def digitsToNat (l : List Char) : Nat :=
  l.foldl (fun n c => 10 * n + (c.toNat - '0'.toNat)) 0

/-- `CHAPTER_VERSE_PATTERN.match(after_book)` with pattern
`(\d{1,3})(?::(\d{1,3}(?:-\d{1,3})?))?`: a greedy run of up to three
digits, optionally followed by `:` and a verse or verse range; the
optional groups match empty when their body fails. Returns
`(int(group(1)), group(2))`. -/
def parseChapterVerse (s : List Char) : Option (Nat × Option (List Char)) :=
  let d1 := (s.takeWhile Char.isDigit).take 3
  if d1 = [] then none
  else
    let chapter := digitsToNat d1
    match s.drop d1.length with
    | ':' :: r2 =>
      let d2 := (r2.takeWhile Char.isDigit).take 3
      if d2 = [] then some (chapter, none)
      else
        match r2.drop d2.length with
        | '-' :: r4 =>
          let d3 := (r4.takeWhile Char.isDigit).take 3
          if d3 = [] then some (chapter, some d2)
          else some (chapter, some (d2 ++ '-' :: d3))
        | _ => some (chapter, some d2)
    | _ => some (chapter, none)

/-- `extract_book_chapter(query)` from
`retrieval/preprocessing_retrieval.py`: find the first book-name match,
then parse an optional chapter/verse reference immediately after it.
No alias normalization is performed. -/
def extract_book_chapter_retrieval (query : List Char) :
    Option (List Char) × Option Nat × Option (List Char) :=
  match searchBook query with
  | none => (none, none, none)
  | some (p, book) =>
    let after_book := pyStrip (query.drop (p + book.length))
    match parseChapterVerse after_book with
    | none => (some book, none, none)
    | some (chapter, verse_range) => (some book, some chapter, verse_range)

/-- The trailing `match book:` normalization block of
`retrieval/preprocessing_query.py`'s `extract_book_chapter`. -/
def normalizeBookAlias (book : List Char) : List Char :=
  if book = "Psalm".toList then "Psalms".toList
  else if book = "Proverb".toList then "Proverbs".toList
  else if book = "Lamentation".toList then "Lamentations".toList
  else if book = "Revelations".toList then "Revelation".toList
  else book

/-- `extract_book_chapter(query)` from
`retrieval/preprocessing_query.py`: identical search and parse logic,
followed by the `match book:` normalization of the four alias spellings. -/
def extract_book_chapter_query (query : List Char) :
    Option (List Char) × Option Nat × Option (List Char) :=
  match searchBook query with
  | none => (none, none, none)
  | some (p, book) =>
    let after_book := pyStrip (query.drop (p + book.length))
    let book := normalizeBookAlias book
    match parseChapterVerse after_book with
    | none => (some book, none, none)
    | some (chapter, verse_range) => (some book, some chapter, verse_range)

/-! ## Retrieval adapter (`retrieval/retrieve.py`) -/

/-- A spaCy capability for `preprocess_query`: `nlpQ t` models the
lemmas of the non-stopword, non-punctuation, alphabetic tokens of
`nlp(t)`. -/
abbrev NlpQuery := List Char → List String

/-- `preprocess_query(query)` from `retrieval/preprocessing_retrieval.py`:
lowercase, lemmatize, filter, and rejoin with spaces. -/
def preprocess_query (nlpQ : NlpQuery) (query : List Char) : List Char :=
  (" ".intercalate (nlpQ (toLowerL query))).toList

/-- The result of `collection.query(...)` as returned by the external
ChromaDB index: parallel lists of ids, documents, metadatas and
distances (the `include` list names them distances). -/
structure ChromaResult where
  ids : List (List Char)
  documents : List (List Char)
  metadatas : List ChromaMeta
  distances : List ℝ

/-- The external ChromaDB collection as a capability: query text,
`n_results`, and the optional `where={'book': ...}` equality filter. -/
abbrev ChromaCollection := List Char → Nat → Option (List Char) → ChromaResult

/-- Python `zip` over the four result columns. -/
def zip4 : List α → List β → List γ → List δ → List (α × β × γ × δ)
  | a :: as', b :: bs, c :: cs, d :: ds => (a, b, c, d) :: zip4 as' bs cs ds
  | _, _, _, _ => []

/-- `retrieve_chunks(collection, query, top_k)` from
`retrieval/retrieve.py`: extract an optional book/chapter reference,
preprocess the query, issue the filtered index query, drop chunks outside
a requested chapter, and package each hit with `"score": score` taken
directly from `results["distances"]`. -/
def retrieve_chunks (col : ChromaCollection) (nlpQ : NlpQuery)
    (query : List Char) (top_k : Nat) : List Cand :=
  let bc := extract_book_chapter_retrieval query
  let book := bc.1
  let chapter := bc.2.1
  let q := preprocess_query nlpQ query
  let results := col q top_k book
  (zip4 results.ids results.documents results.metadatas results.distances).filterMap
    (fun r =>
      match r with
      | (chunk_id, doc, meta, score) =>
        match chapter with
        | some ch =>
          if meta.chapter_start ≤ (ch : Int) ∧ (ch : Int) ≤ meta.chapter_end then
            some { id := chunk_id, text := doc, metadata := meta,
                   score := some score, re_rank_score := none }
          else none
        | none =>
          some { id := chunk_id, text := doc, metadata := meta,
                 score := some score, re_rank_score := none })

/-! ## Auxiliary predicates and values used by the theorems -/

/-- Character offset of the `i`-th verse text inside a chunk built by
concatenation with single-space separators: the lengths of the earlier
texts plus one separator each. -/
def offAt (vs : List Verse) (i : Nat) : Nat :=
  ((vs.take i).map (fun v => v.text.length + 1)).sum

/-- Concrete one-verse input used by closed witness instances. -/
def vGen : Verse :=
  { book := "Genesis".toList, chapter := 1, verse := 1,
    text := "ab c".toList, testament := "OT".toList, section' := none }

/-- All seven mode confidences lie in `[0, 1]`. -/
def QueryModes.InUnit (m : QueryModes) : Prop :=
  0 ≤ m.law ∧ m.law ≤ 1 ∧ 0 ≤ m.discourse ∧ m.discourse ≤ 1 ∧
  0 ≤ m.prophetic ∧ m.prophetic ≤ 1 ∧ 0 ≤ m.narrative ∧ m.narrative ≤ 1 ∧
  0 ≤ m.wisdom ∧ m.wisdom ≤ 1 ∧ 0 ≤ m.lookup ∧ m.lookup ≤ 1 ∧
  0 ≤ m.open' ∧ m.open' ≤ 1

/-- Strict descending-with-stability order on list positions: `i` comes
before `j` when its key is larger, or the keys tie and `i` is the earlier
original position. -/
def SRel (key : Nat → ℝ) (i j : Nat) : Prop :=
  key j < key i ∨ (key i = key j ∧ i < j)

/-- Metadata placeholder for concrete witness instances. -/
def mMeta0 : ChromaMeta :=
  { book := [], chapter_start := 1, verse_start := 1, chapter_end := 1,
    verse_end := 1, testament := [], section' := [] }

/-- A concrete candidate whose external-index `score` is the ChromaDB
distance `1.5` (a poor match under any distance convention). -/
noncomputable def cFar : Cand :=
  { id := [], text := "far".toList, metadata := mMeta0,
    score := some (3/2), re_rank_score := none }

/-- A concrete collection capability returning a single hit at cosine
distance `1.5`. -/
noncomputable def col0 : ChromaCollection := fun _ _ _ =>
  { ids := [[]], documents := ["far".toList], metadatas := [mMeta0],
    distances := [(3/2 : ℝ)] }

/-! # Theorems -/

/-! ## C3: the narrative mode signal -/

/-- C3, counterexample: the claim says the `narrative` component equals
`1.0` whenever the literal phrase `"what happened"` occurs in the
lowercased query. On the query `"what happened"` (where the phrase
plainly occurs) the code sets it to `0.3`, not `1.0`. -/
theorem C3_counterexample :
    ("what happened".toList <:+: toLowerL "what happened".toList)
    ∧ (detect_query_modes (fun _ _ => false) "what happened".toList).narrative = 3/10
    ∧ ((3 : ℚ)/10 ≠ 1) := by
  have h : (detect_query_modes (fun _ _ => false) "what happened".toList).narrative
      = if ("what happened".toList <:+: toLowerL "what happened".toList)
        then (3/10 : ℚ) else 0 := rfl
  refine ⟨by decide, ?_, by norm_num⟩
  rw [h, if_pos (by decide)]

/-- C3, amended: for every regex engine and every query string, the
`narrative` component of `detect_query_modes` equals `0.3` if the literal
phrase `"what happened"` appears in the lowercased query, and `0.0`
otherwise. -/
theorem C3_narrative_amended (matcher : ReMatcher) (query : List Char) :
    (detect_query_modes matcher query).narrative =
      if ("what happened".toList <:+: toLowerL query) then 3/10 else 0 := by
  rfl

/-! ## C5: alpha computation and bounds -/

/-- C5: for every mode vector with components in `[0,1]`,
`compute_alpha_from_query_modes` returns the clamp to `[0.1, 0.9]` of
`0.6 - 0.3*law - 0.3*lookup - 0.2*prophetic + 0.2*discourse + 0.1*wisdom
+ 0.1*open`, and consequently the result always lies in `[0.1, 0.9]`. -/
theorem C5_alpha_clamp (m : QueryModes) (hm : m.InUnit) :
    compute_alpha_from_query_modes m =
      min (9/10) (max (1/10)
        (6/10 - 3/10 * m.law - 3/10 * m.lookup - 2/10 * m.prophetic
          + 2/10 * m.discourse + 1/10 * m.wisdom + 1/10 * m.open'))
    ∧ 1/10 ≤ compute_alpha_from_query_modes m
    ∧ compute_alpha_from_query_modes m ≤ 9/10 := by
  refine ⟨?_, ?_, ?_⟩
  · unfold compute_alpha_from_query_modes ALPHA_BASELINE
    ring_nf
  · unfold compute_alpha_from_query_modes
    have h1 : (1/10 : ℚ) ≤ max (1/10) (ALPHA_BASELINE - 3/10 * m.law - 3/10 * m.lookup
        - 2/10 * m.prophetic + 2/10 * m.discourse + 1/10 * m.wisdom + 1/10 * m.open') :=
      le_max_left _ _
    have h2 : (1/10 : ℚ) ≤ 9/10 := by norm_num
    exact le_min h2 h1
  · exact min_le_left _ _

/-- C5, witness: the theorem applied to the all-zero mode vector. -/
theorem C5_alpha_clamp_witness :
    compute_alpha_from_query_modes ⟨0, 0, 0, 0, 0, 0, 0⟩ =
      min (9/10) (max (1/10)
        (6/10 - 3/10 * (0:ℚ) - 3/10 * 0 - 2/10 * 0 + 2/10 * 0 + 1/10 * 0 + 1/10 * 0))
    ∧ 1/10 ≤ compute_alpha_from_query_modes ⟨0, 0, 0, 0, 0, 0, 0⟩
    ∧ compute_alpha_from_query_modes ⟨0, 0, 0, 0, 0, 0, 0⟩ ≤ 9/10 :=
  C5_alpha_clamp ⟨0, 0, 0, 0, 0, 0, 0⟩ (by norm_num [QueryModes.InUnit])

/-! ## C4: book alias normalization -/

/-- C4, counterexample: `extract_book_chapter` as defined in
`retrieval/preprocessing_retrieval.py` (one of the two code locations the
claim covers) returns `("Psalm", 23, None)` for the query `"Psalm 23"`:
the book component is the unnormalized alias, which is not one of the 66
canonical book names, contradicting both the general statement and the
claimed instance `("Psalms", 23, None)`. -/
theorem C4_counterexample :
    extract_book_chapter_retrieval "Psalm 23".toList
      = (some "Psalm".toList, some 23, none)
    ∧ "Psalm".toList ∉ canonicalBooks.map String.toList
    ∧ (some "Psalm".toList ≠ some "Psalms".toList) := by
  refine ⟨by decide, by decide, by decide⟩

/-- C4, amended: the normalization holds only for the
`preprocessing_query.py` version of `extract_book_chapter`, whose result
is that of the `preprocessing_retrieval.py` version with the book
component passed through the four-alias normalization (which maps the
exact-cased spellings `"Psalm"`, `"Proverb"`, `"Lamentation"`,
`"Revelations"` and leaves any other matched text, including differently
cased aliases, unchanged); in particular the query version returns
`("Psalms", 23, None)` on `"Psalm 23"` and `("Revelation", 1, "1-8")` on
`"Revelations 1:1-8"`, while the retrieval version performs no
normalization. -/
theorem C4_alias_normalization :
    (∀ query : List Char,
      extract_book_chapter_query query =
        ((extract_book_chapter_retrieval query).1.map normalizeBookAlias,
         (extract_book_chapter_retrieval query).2))
    ∧ extract_book_chapter_query "Psalm 23".toList
        = (some "Psalms".toList, some 23, none)
    ∧ extract_book_chapter_query "Revelations 1:1-8".toList
        = (some "Revelation".toList, some 1, some "1-8".toList) := by
  refine ⟨?_, by decide, by decide⟩
  intro query
  unfold extract_book_chapter_query extract_book_chapter_retrieval
  cases searchBook query with
  | none => rfl
  | some pb =>
    obtain ⟨p, book⟩ := pb
    simp only
    cases parseChapterVerse (pyStrip (query.drop (p + book.length))) with
    | none => rfl
    | some cv => rfl

/-! ## C1: offset correctness of the indexing chunker -/

theorem mkVerseIndices_length (vs : List Verse) (c : Nat) :
    (mkVerseIndices vs c).length = vs.length := by
  induction vs generalizing c with
  | nil => rfl
  | cons v rest ih => simp [mkVerseIndices, ih]

theorem offAt_zero (vs : List Verse) : offAt vs 0 = 0 := rfl

theorem offAt_cons_succ (v : Verse) (vs : List Verse) (i : Nat) :
    offAt (v :: vs) (i + 1) = v.text.length + 1 + offAt vs i := by
  simp [offAt, List.take_cons, Nat.add_comm]

theorem mkVerseIndices_getD (vs : List Verse) (c i : Nat) (h : i < vs.length) :
    (mkVerseIndices vs c).getD i default =
      { chapter := (vs.getD i default).chapter
        verse := (vs.getD i default).verse
        start := c + offAt vs i
        end' := c + offAt vs i + (vs.getD i default).text.length } := by
  induction vs generalizing c i with
  | nil => simp at h
  | cons v rest ih =>
    cases i with
    | zero => simp [mkVerseIndices, offAt_zero]
    | succ i =>
      have h' : i < rest.length := by simpa using h
      simp only [mkVerseIndices, List.getD_cons_succ, offAt_cons_succ]
      rw [ih (c + v.text.length + 1) i h']
      congr 1 <;> omega

theorem joinSpace_cons (t : List Char) (ts : List (List Char)) (h : ts ≠ []) :
    joinSpace (t :: ts) = t ++ ' ' :: joinSpace ts := by
  cases ts with
  | nil => exact absurd rfl h
  | cons t' ts' => rfl

theorem pySlice_add (l : List Char) (s n : Nat) :
    pySlice l s (s + n) = (l.drop s).take n := by
  unfold pySlice
  rw [Nat.add_sub_cancel_left]

theorem pySlice_joinSpace (vs : List Verse) (i : Nat) (h : i < vs.length) :
    pySlice (joinSpace (vs.map Verse.text)) (offAt vs i)
      (offAt vs i + (vs.getD i default).text.length) = (vs.getD i default).text := by
  induction vs generalizing i with
  | nil => simp at h
  | cons v rest ih =>
    cases i with
    | zero =>
      simp only [List.getD_cons_zero, offAt_zero, pySlice, Nat.zero_add,
        Nat.sub_zero, List.drop_zero]
      cases rest with
      | nil => simp [joinSpace]
      | cons r rs =>
        rw [List.map_cons, joinSpace_cons _ _ (by simp)]
        exact List.take_left _ _
    | succ i =>
      have h' : i < rest.length := by simpa using h
      have hmap : (rest.map Verse.text) ≠ [] := by
        intro hnil
        rw [List.map_eq_nil_iff] at hnil
        rw [hnil] at h'; simp at h'
      simp only [List.getD_cons_succ, offAt_cons_succ]
      rw [List.map_cons, joinSpace_cons _ _ hmap, pySlice_add]
      have hdrop : (v.text ++ ' ' :: joinSpace (rest.map Verse.text)).drop
          (v.text.length + 1 + offAt rest i)
          = (joinSpace (rest.map Verse.text)).drop (offAt rest i) := by
        have hsplit : v.text ++ ' ' :: joinSpace (rest.map Verse.text)
            = (v.text ++ [' ']) ++ joinSpace (rest.map Verse.text) := by simp
        have hlen : (v.text ++ [' ']).length = v.text.length + 1 := by simp
        rw [hsplit]
        calc ((v.text ++ [' ']) ++ joinSpace (rest.map Verse.text)).drop
              (v.text.length + 1 + offAt rest i)
            = (((v.text ++ [' ']) ++ joinSpace (rest.map Verse.text)).drop
                (v.text.length + 1)).drop (offAt rest i) := by
              rw [List.drop_drop]
          _ = (joinSpace (rest.map Verse.text)).drop (offAt rest i) := by
              rw [← hlen, List.drop_left]
      rw [hdrop, ← pySlice_add]
      exact ih i h'

theorem genLoop_mem_shape {α : Type} (emit : List Verse → α) (mw ov : Nat) :
    ∀ (gverses cur : List Verse) (cwc : Nat) (c : α),
      c ∈ genLoop emit mw ov gverses cur cwc → ∃ vs, vs ≠ [] ∧ c = emit vs := by
  intro gverses
  induction gverses with
  | nil =>
    intro cur cwc c hc
    by_cases hcur : cur.isEmpty
    · simp [genLoop, hcur] at hc
    · simp [genLoop, hcur] at hc
      exact ⟨cur, by simpa [List.isEmpty_iff] using hcur, hc⟩
  | cons v rest ih =>
    intro cur cwc c hc
    by_cases hcond : mw ≤ cwc + verseWC v
    · simp only [genLoop, if_pos hcond, List.mem_cons] at hc
      rcases hc with h | h
      · exact ⟨cur ++ [v], by simp, h⟩
      · exact ih _ _ _ h
    · simp only [genLoop, if_neg hcond] at hc
      exact ih _ _ _ hc

/-- C1: every chunk produced by `chunk_verses_min_first_with_indexing` is
built from some non-empty verse list `vs`; its `verse_indices` list pairs
up with `vs` entry by entry (matching chapter and verse numbers); slicing
the chunk text from each entry's `start` to its `end` yields exactly that
source verse's text, character for character; and each entry's `start` is
the previous entry's `end` plus exactly one (the single space
separator). -/
theorem C1_offset_correctness (verses : List Verse) (min_words chunk_overlap : Nat)
    (c : ChunkIdx) (hc : c ∈ chunk_verses_min_first_with_indexing verses min_words chunk_overlap) :
    ∃ vs : List Verse, vs ≠ [] ∧ c = mkChunkIdx vs
      ∧ c.verse_indices.length = vs.length
      ∧ (∀ i, i < vs.length →
          (c.verse_indices.getD i default).chapter = (vs.getD i default).chapter
          ∧ (c.verse_indices.getD i default).verse = (vs.getD i default).verse
          ∧ pySlice c.text (c.verse_indices.getD i default).start
              (c.verse_indices.getD i default).end' = (vs.getD i default).text)
      ∧ (∀ i, i + 1 < vs.length →
          (c.verse_indices.getD (i + 1) default).start
            = (c.verse_indices.getD i default).end' + 1) := by
  obtain ⟨vs, hne, hcv⟩ := genLoop_mem_shape mkChunkIdx min_words chunk_overlap
    verses [] 0 c hc
  refine ⟨vs, hne, hcv, ?_, ?_, ?_⟩
  · rw [hcv]; exact mkVerseIndices_length vs 0
  · intro i hi
    have hidx : (c.verse_indices.getD i default) =
        { chapter := (vs.getD i default).chapter
          verse := (vs.getD i default).verse
          start := 0 + offAt vs i
          end' := 0 + offAt vs i + (vs.getD i default).text.length } := by
      rw [hcv]; exact mkVerseIndices_getD vs 0 i hi
    refine ⟨by rw [hidx], by rw [hidx], ?_⟩
    rw [hidx, hcv]
    simpa [mkChunkIdx] using pySlice_joinSpace vs i hi
  · intro i hi
    have hi' : i < vs.length := by omega
    have h1 : (c.verse_indices.getD (i + 1) default) =
        { chapter := (vs.getD (i + 1) default).chapter
          verse := (vs.getD (i + 1) default).verse
          start := 0 + offAt vs (i + 1)
          end' := 0 + offAt vs (i + 1) + (vs.getD (i + 1) default).text.length } := by
      rw [hcv]; exact mkVerseIndices_getD vs 0 (i + 1) hi
    have h0 : (c.verse_indices.getD i default) =
        { chapter := (vs.getD i default).chapter
          verse := (vs.getD i default).verse
          start := 0 + offAt vs i
          end' := 0 + offAt vs i + (vs.getD i default).text.length } := by
      rw [hcv]; exact mkVerseIndices_getD vs 0 i hi'
    rw [h1, h0]
    simp only
    have hoff : offAt vs (i + 1) = offAt vs i + ((vs.getD i default).text.length + 1) := by
      unfold offAt
      rw [List.getD_eq_getElem vs default hi']
      rw [List.map_take, List.map_take, List.take_succ, List.getElem?_map,
          List.getElem?_eq_getElem hi']
      simp
    omega

/-- C1, witness: the theorem applied to a concrete one-verse input whose
single chunk is emitted by the threshold branch. -/
theorem C1_offset_correctness_witness :
    ∃ vs : List Verse, vs ≠ []
      ∧ mkChunkIdx [vGen] = mkChunkIdx vs
      ∧ (mkChunkIdx [vGen]).verse_indices.length = vs.length
      ∧ (∀ i, i < vs.length →
          ((mkChunkIdx [vGen]).verse_indices.getD i default).chapter
            = (vs.getD i default).chapter
          ∧ ((mkChunkIdx [vGen]).verse_indices.getD i default).verse
            = (vs.getD i default).verse
          ∧ pySlice (mkChunkIdx [vGen]).text
              ((mkChunkIdx [vGen]).verse_indices.getD i default).start
              ((mkChunkIdx [vGen]).verse_indices.getD i default).end'
            = (vs.getD i default).text)
      ∧ (∀ i, i + 1 < vs.length →
          ((mkChunkIdx [vGen]).verse_indices.getD (i + 1) default).start
            = ((mkChunkIdx [vGen]).verse_indices.getD i default).end' + 1) :=
  C1_offset_correctness [vGen] 1 0 (mkChunkIdx [vGen])
    (by rw [show chunk_verses_min_first_with_indexing [vGen] 1 0
              = [mkChunkIdx [vGen]] from rfl]
        exact List.mem_singleton.mpr rfl)

/-! ## C7: empty phrase sets short-circuit to 0.0 -/

/-- C7: `compute_phrase_overlap` returns `0.0` whenever the query's or the
chunk's n-gram set is empty, so the division by
`min(len(query_phrases), len(chunk_phrases))` is only ever reached with a
positive divisor; the per-category pattern counts dividing
`_score_patterns` are likewise fixed positive constants. -/
theorem C7_phrase_overlap_safe :
    (∀ (nlp : NlpLemmas) (query chunk_text : List Char) (max_words : Nat) (k : ℝ),
      ((extract_phrases nlp (toLowerL query) 2 5).toFinset = ∅
        ∨ (extract_phrases nlp (toLowerL chunk_text) 2 5).toFinset = ∅) →
      compute_phrase_overlap nlp query chunk_text max_words k = 0)
    ∧ (∀ (nlp : NlpLemmas) (query chunk_text : List Char),
        (extract_phrases nlp (toLowerL query) 2 5).toFinset ≠ ∅ →
        (extract_phrases nlp (toLowerL chunk_text) 2 5).toFinset ≠ ∅ →
        0 < min (extract_phrases nlp (toLowerL query) 2 5).toFinset.card
            (extract_phrases nlp (toLowerL chunk_text) 2 5).toFinset.card)
    ∧ 0 < LAW_PATTERNS.length ∧ 0 < DISCOURSE_PATTERNS.length
    ∧ 0 < PROPHETIC_PATTERNS.length ∧ 0 < LOOKUP_PATTERNS.length
    ∧ 0 < WISDOM_PATTERNS.length := by
  refine ⟨?_, ?_, by decide, by decide, by decide, by decide, by decide⟩
  · intro nlp query chunk_text max_words k h
    unfold compute_phrase_overlap
    rw [if_pos h]
  · intro nlp query chunk_text hq hc
    have hq' := Finset.card_pos.mpr (Finset.nonempty_of_ne_empty hq)
    have hc' := Finset.card_pos.mpr (Finset.nonempty_of_ne_empty hc)
    exact lt_min hq' hc'

/-- C7, witness: the theorem applied to the trivial lemmatizer, whose
query n-gram set is empty. -/
theorem C7_phrase_overlap_safe_witness :
    compute_phrase_overlap (fun _ => []) "a".toList "b".toList 5 3 = 0 :=
  C7_phrase_overlap_safe.1 (fun _ => []) "a".toList "b".toList 5 3 (Or.inl rfl)

/-! ## C6 and C9: reranking order, filtering, and in-place mutation -/

theorem mem_insertDesc (key : Nat → ℝ) (x : Nat) (l : List Nat) (a : Nat) :
    a ∈ insertDesc key x l ↔ a = x ∨ a ∈ l := by
  induction l with
  | nil => simp [insertDesc]
  | cons y ys ih =>
    by_cases h : key y ≤ key x
    · simp [insertDesc, if_pos h]
    · simp [insertDesc, if_neg h, ih]
      tauto

theorem mem_sortDesc (key : Nat → ℝ) (l : List Nat) (a : Nat) :
    a ∈ sortDesc key l ↔ a ∈ l := by
  induction l with
  | nil => simp [sortDesc]
  | cons x xs ih =>
    show a ∈ insertDesc key x (sortDesc key xs) ↔ _
    rw [mem_insertDesc, ih]
    simp

theorem pairwise_insertDesc (key : Nat → ℝ) (x : Nat) (l : List Nat)
    (hx : ∀ y ∈ l, x < y) (hl : l.Pairwise (SRel key)) :
    (insertDesc key x l).Pairwise (SRel key) := by
  induction l with
  | nil => simp [insertDesc, List.pairwise_singleton]
  | cons y ys ih =>
    rw [List.pairwise_cons] at hl
    obtain ⟨hy, hys⟩ := hl
    by_cases h : key y ≤ key x
    · rw [insertDesc, if_pos h]
      refine List.pairwise_cons.mpr ⟨?_, List.pairwise_cons.mpr ⟨hy, hys⟩⟩
      intro z hz
      rcases List.mem_cons.mp hz with hz | hz
      · -- z = y
        subst hz
        rcases lt_or_eq_of_le h with hlt | heq
        · exact Or.inl hlt
        · exact Or.inr ⟨heq.symm, hx z (by simp)⟩
      · -- z deeper in ys
        have hyz := hy z hz
        rcases hyz with hlt | ⟨heq, _⟩
        · exact Or.inl (lt_of_lt_of_le hlt h)
        · rcases lt_or_eq_of_le h with hlt | heq'
          · exact Or.inl (heq ▸ hlt)
          · exact Or.inr ⟨heq'.symm.trans heq, hx z (List.mem_cons_of_mem y hz)⟩
    · rw [insertDesc, if_neg h]
      refine List.pairwise_cons.mpr ⟨?_, ih (fun z hz => hx z (List.mem_cons_of_mem y hz)) hys⟩
      intro z hz
      rw [mem_insertDesc] at hz
      rcases hz with hz | hz
      · subst hz
        exact Or.inl (lt_of_not_le h)
      · exact hy z hz

theorem pairwise_sortDesc (key : Nat → ℝ) (l : List Nat)
    (hl : l.Pairwise (· < ·)) : (sortDesc key l).Pairwise (SRel key) := by
  induction l with
  | nil => simp [sortDesc]
  | cons x xs ih =>
    rw [List.pairwise_cons] at hl
    obtain ⟨hx, hxs⟩ := hl
    show (insertDesc key x (sortDesc key xs)).Pairwise (SRel key)
    refine pairwise_insertDesc key x (sortDesc key xs) ?_ (ih hxs)
    intro y hy
    exact hx y ((mem_sortDesc key xs y).mp hy)

/-- C6: for fixed candidates, query and `min_score`, `rerank_chunks` is
deterministic (equal inputs give equal mutated state and equal output
order); the returned positions are sorted so that an earlier output either
has a strictly larger `re_rank_score` or ties with a smaller (earlier)
original position (Python's `sorted` is stable, so ties keep candidate
order); and every returned candidate's stored `re_rank_score` is at least
`min_score`. -/
theorem C6_rerank_deterministic_sorted (matcher : ReMatcher) (nlp : NlpLemmas)
    (chunks : List Cand) (query : List Char) (min_score : ℝ) :
    rerank_chunks matcher nlp chunks query min_score
      = rerank_chunks matcher nlp chunks query min_score
    ∧ ((rerank_chunks matcher nlp chunks query min_score).2).Pairwise
        (SRel (rrKey (rerank_chunks matcher nlp chunks query min_score).1))
    ∧ (∀ i ∈ (rerank_chunks matcher nlp chunks query min_score).2,
        min_score ≤ rrKey (rerank_chunks matcher nlp chunks query min_score).1 i) := by
  refine ⟨rfl, ?_, ?_⟩
  · show (sortDesc _ _).Pairwise _
    apply pairwise_sortDesc
    exact (List.pairwise_lt_range _).filter _
  · intro i hi
    have hi' : i ∈ (List.range chunks.length).filter
        (fun i => decide (min_score ≤ rrKey ((rerank_chunks matcher nlp chunks query min_score).1) i)) := by
      exact (mem_sortDesc _ _ i).mp hi
    have := (List.mem_filter.mp hi').2
    exact of_decide_eq_true this

/-- C9: `rerank_chunks` mutates its input in place. In the embedding the
first component of the result is the input list after the call: it has the
same length, and the dictionary at every position `i` — including
positions whose score falls below `min_score` and which are therefore
absent from the output — is the original dictionary at position `i` with
(exactly) the `re_rank_score` key written into it; the returned list
(second component) consists of positions into that same mutated input
list, not of copies. -/
theorem C9_rerank_mutates_in_place (matcher : ReMatcher) (nlp : NlpLemmas)
    (chunks : List Cand) (query : List Char) (min_score : ℝ) :
    ((rerank_chunks matcher nlp chunks query min_score).1).length = chunks.length
    ∧ (∀ i, i < chunks.length →
        (rerank_chunks matcher nlp chunks query min_score).1.getD i default
          = { chunks.getD i default with
              re_rank_score := some (reRankScoreOf matcher nlp query (chunks.getD i default)) })
    ∧ (∀ j ∈ (rerank_chunks matcher nlp chunks query min_score).2, j < chunks.length) := by
  refine ⟨by simp [rerank_chunks], ?_, ?_⟩
  · intro i hi
    show (chunks.map _).getD i default = _
    have hlen : i < (chunks.map (fun c =>
        { c with re_rank_score := some (reRankScoreOf matcher nlp query c) })).length := by
      simpa using hi
    rw [List.getD_eq_getElem _ default hlen, List.getElem_map,
      List.getD_eq_getElem chunks default hi]
  · intro j hj
    have hj' := (mem_sortDesc _ _ j).mp hj
    have := (List.mem_filter.mp hj').1
    simpa using List.mem_range.mp this

/-- C6, witness: the theorem applied to a concrete one-candidate input. -/
theorem C6_rerank_deterministic_sorted_witness :
    rerank_chunks (fun _ _ => false) (fun _ => []) [cFar] "q".toList 0
      = rerank_chunks (fun _ _ => false) (fun _ => []) [cFar] "q".toList 0
    ∧ ((rerank_chunks (fun _ _ => false) (fun _ => []) [cFar] "q".toList 0).2).Pairwise
        (SRel (rrKey (rerank_chunks (fun _ _ => false) (fun _ => []) [cFar] "q".toList 0).1))
    ∧ (∀ i ∈ (rerank_chunks (fun _ _ => false) (fun _ => []) [cFar] "q".toList 0).2,
        (0 : ℝ) ≤ rrKey (rerank_chunks (fun _ _ => false) (fun _ => []) [cFar] "q".toList 0).1 i) :=
  C6_rerank_deterministic_sorted (fun _ _ => false) (fun _ => []) [cFar] "q".toList 0

/-- C9, witness: the theorem applied to a concrete one-candidate input. -/
theorem C9_rerank_mutates_in_place_witness :
    ((rerank_chunks (fun _ _ => false) (fun _ => []) [cFar] "q".toList 0).1).length
        = [cFar].length
    ∧ (∀ i, i < [cFar].length →
        (rerank_chunks (fun _ _ => false) (fun _ => []) [cFar] "q".toList 0).1.getD i default
          = { [cFar].getD i default with
              re_rank_score := some (reRankScoreOf (fun _ _ => false) (fun _ => [])
                "q".toList ([cFar].getD i default)) })
    ∧ (∀ j ∈ (rerank_chunks (fun _ _ => false) (fun _ => []) [cFar] "q".toList 0).2,
        j < [cFar].length) :=
  C9_rerank_mutates_in_place (fun _ _ => false) (fun _ => []) [cFar] "q".toList 0

/-! ## C2: the embedding score fed into the blend -/

theorem zip4_mem_last {α β γ δ : Type} (p : α × β × γ × δ) :
    ∀ (as2 : List α) (bs : List β) (cs : List γ) (ds : List δ),
      p ∈ zip4 as2 bs cs ds → p.2.2.2 ∈ ds := by
  intro as2
  induction as2 with
  | nil => intro bs cs ds h; simp [zip4] at h
  | cons a as3 ih =>
    intro bs cs ds h
    cases bs with
    | nil => simp [zip4] at h
    | cons b bs' =>
      cases cs with
      | nil => simp [zip4] at h
      | cons c cs' =>
        cases ds with
        | nil => simp [zip4] at h
        | cons d ds' =>
          rcases List.mem_cons.mp h with hp | hp
          · subst hp; simp
          · exact List.mem_cons_of_mem d (ih bs' cs' ds' hp)

/-- C2: the claim fails on the code, and the spec's own warning is the one
that is violated. The retrieval adapter stores the raw value from
`results["distances"]` unchanged as each candidate's `score` (first
conjunct: every retrieved candidate's `score` is literally one of the
distances returned by the external index — no distance-to-similarity
conversion exists anywhere on the path into the blend), and the reranker
feeds it into `alpha * embeddingScore + (1 - alpha) * phraseScore` as-is:
for a candidate at cosine distance `1.5` (a poor match) it computes a
blended score of `1.05` (second conjunct), which both exceeds the claimed
`[0,1]` similarity range and rewards larger distances. -/
theorem C2_distance_not_converted :
    (∀ (col : ChromaCollection) (nlpQ : NlpQuery) (query : List Char) (top_k : Nat)
      (c : Cand), c ∈ retrieve_chunks col nlpQ query top_k →
      ∃ d : ℝ, c.score = some d
        ∧ d ∈ (col (preprocess_query nlpQ query) top_k
            (extract_book_chapter_retrieval query).1).distances)
    ∧ reRankScoreOf (fun _ _ => false) (fun _ => []) "q".toList cFar = 21/20
    ∧ ((1 : ℝ) < 21/20) := by
  refine ⟨?_, ?_, by norm_num⟩
  · intro col nlpQ query top_k c hc
    simp only [retrieve_chunks] at hc
    rw [List.mem_filterMap] at hc
    obtain ⟨p, hp, hfc⟩ := hc
    obtain ⟨cid, doc, meta, s⟩ := p
    have hs : s ∈ (col (preprocess_query nlpQ query) top_k
        (extract_book_chapter_retrieval query).1).distances :=
      zip4_mem_last (cid, doc, meta, s) _ _ _ _ hp
    refine ⟨s, ?_, hs⟩
    rcases hch : (extract_book_chapter_retrieval query).2.1 with _ | ch
    · rw [hch] at hfc
      simp only [Option.some.injEq] at hfc
      rw [← hfc]
    · rw [hch] at hfc
      simp only at hfc
      by_cases hcs : meta.chapter_start ≤ (ch : Int) ∧ (ch : Int) ≤ meta.chapter_end
      · rw [if_pos hcs] at hfc
        simp only [Option.some.injEq] at hfc
        rw [← hfc]
      · rw [if_neg hcs] at hfc
        exact absurd hfc (by simp)
  · have hsp : ∀ (q : List Char) (ps : List String),
        score_patterns (fun _ _ => false) q ps = 0 := by
      intro q ps
      unfold score_patterns
      simp
    have hdm : detect_query_modes (fun _ _ => false) "q".toList
        = { law := 0, discourse := 0, prophetic := 0, narrative := 0,
            wisdom := 0, lookup := 0, open' := 1 } := by
      simp only [detect_query_modes]
      rw [hsp, hsp, hsp, hsp, hsp,
        if_neg (show ¬("what happened".toList <:+: toLowerL "q".toList) by decide)]
      simp
    have halpha : compute_alpha_from_query_modes
        (detect_query_modes (fun _ _ => false) "q".toList) = 7/10 := by
      rw [hdm]
      unfold compute_alpha_from_query_modes ALPHA_BASELINE
      norm_num
    have hpo : compute_phrase_overlap (fun _ => []) "q".toList cFar.text 5 3 = 0 := by
      simp only [compute_phrase_overlap]
      rw [if_pos (Or.inl (show (extract_phrases (fun _ => [])
        (toLowerL "q".toList) 2 5).toFinset = ∅ from rfl))]
    simp only [reRankScoreOf]
    rw [halpha, hpo]
    show ((7/10 : ℚ) : ℝ) * ((3/2 : ℝ)) + (1 - ((7/10 : ℚ) : ℝ)) * 0 = 21/20
    push_cast
    norm_num

/-- C2, witness: the retrieve-side conjunct applied to a concrete
collection capability: the single retrieved candidate's `score` is the raw
distance `1.5` the index returned. -/
theorem C2_distance_not_converted_witness :
    ∃ d : ℝ, cFar.score = some d
      ∧ d ∈ (col0 (preprocess_query (fun _ => []) "q".toList) 1
          (extract_book_chapter_retrieval "q".toList).1).distances :=
  C2_distance_not_converted.1 col0 (fun _ => []) "q".toList 1 cFar
    (by rw [show retrieve_chunks col0 (fun _ => []) "q".toList 1 = [cFar] from rfl]
        exact List.mem_singleton.mpr rfl)

/-! ## C10: overlap-only final chunk on last-verse emission -/

theorem sumWC_append (l1 l2 : List Verse) : sumWC (l1 ++ l2) = sumWC l1 + sumWC l2 := by
  simp [sumWC]

theorem takeLast_suffix (n : Nat) (l : List α) : takeLast n l <:+ l :=
  List.drop_suffix _ _

theorem takeLast_length (n : Nat) (l : List α) :
    (takeLast n l).length = min n l.length := by
  simp [takeLast]
  omega

theorem takeLast_ne_nil (n : Nat) (l : List α) (hn : 0 < n) (hl : l ≠ []) :
    takeLast n l ≠ [] := by
  intro hcontra
  have h1 : (takeLast n l).length = 0 := by rw [hcontra]; rfl
  rw [takeLast_length] at h1
  have h2 : 0 < l.length := List.length_pos.mpr hl
  omega

theorem genLoop_last_emission {α : Type} (emit : List Verse → α) (mw ov : Nat)
    (hov : 0 < ov) (v : Verse) :
    ∀ (xs cur : List Verse),
      mw ≤ sumWC (genLoopState mw ov xs cur (sumWC cur) ++ [v]) →
      ∃ pre : List α,
        genLoop emit mw ov (xs ++ [v]) cur (sumWC cur)
          = pre ++ [emit (genLoopState mw ov xs cur (sumWC cur) ++ [v]),
                    emit (takeLast ov (genLoopState mw ov xs cur (sumWC cur) ++ [v]))] := by
  intro xs
  induction xs with
  | nil =>
    intro cur hcond
    refine ⟨[], ?_⟩
    have hcond' : mw ≤ sumWC cur + verseWC v := by
      have := hcond
      rw [show genLoopState mw ov [] cur (sumWC cur) = cur from rfl, sumWC_append] at this
      simpa [sumWC] using this
    show genLoop emit mw ov [v] cur (sumWC cur) = _
    simp only [genLoop, if_pos hcond', if_pos hov]
    have hne : takeLast ov (cur ++ [v]) ≠ [] :=
      takeLast_ne_nil ov (cur ++ [v]) hov (by simp)
    simp only [genLoop, List.isEmpty_iff, if_neg hne]
    rfl
  | cons x xs ih =>
    intro cur hcond
    by_cases hc : mw ≤ sumWC cur + verseWC x
    · -- threshold hit at x: emit and continue with the overlap tail
      have hstate : genLoopState mw ov (x :: xs) cur (sumWC cur)
          = genLoopState mw ov xs (takeLast ov (cur ++ [x]))
              (sumWC (takeLast ov (cur ++ [x]))) := by
        simp only [genLoopState, if_pos hc, if_pos hov]
      rw [hstate] at hcond
      obtain ⟨pre, hpre⟩ := ih (takeLast ov (cur ++ [x])) hcond
      refine ⟨emit (cur ++ [x]) :: pre, ?_⟩
      show genLoop emit mw ov (x :: (xs ++ [v])) cur (sumWC cur) = _
      simp only [genLoop, if_pos hc, if_pos hov]
      rw [hpre, hstate]
      rfl
    · -- no emission at x: continue with the grown accumulator
      have hstate : genLoopState mw ov (x :: xs) cur (sumWC cur)
          = genLoopState mw ov xs (cur ++ [x]) (sumWC (cur ++ [x])) := by
        simp only [genLoopState, if_neg hc]
        congr 1
        simp [sumWC_append, sumWC]
      rw [hstate] at hcond
      obtain ⟨pre, hpre⟩ := ih (cur ++ [x]) hcond
      refine ⟨pre, ?_⟩
      show genLoop emit mw ov (x :: (xs ++ [v])) cur (sumWC cur) = _
      simp only [genLoop, if_neg hc]
      rw [show sumWC cur + verseWC x = sumWC (cur ++ [x]) by simp [sumWC_append, sumWC]]
      rw [hpre, hstate]

/-- C10: when `chunk_overlap > 0` and the `min_words` threshold is reached
exactly at the last input verse, both `chunk_verses_min_first` and
`chunk_verses_min_first_with_indexing` emit the threshold chunk and then
one additional final chunk consisting of exactly the last `chunk_overlap`
verses of it (all of `chunk_overlap` when enough verses are available,
i.e. `min chunk_overlap n` verses): a final chunk that is a suffix of the
immediately preceding chunk's verses and contributes no new verses. -/
theorem C10_trailing_overlap_chunk (verses : List Verse) (v : Verse)
    (min_words chunk_overlap : Nat) (hov : 0 < chunk_overlap)
    (hemit : min_words ≤ sumWC
      (genLoopState min_words chunk_overlap verses [] (sumWC []) ++ [v])) :
    (∃ pre, chunk_verses_min_first (verses ++ [v]) min_words chunk_overlap
      = pre ++ [mkChunk (genLoopState min_words chunk_overlap verses [] (sumWC []) ++ [v]),
                mkChunk (takeLast chunk_overlap
                  (genLoopState min_words chunk_overlap verses [] (sumWC []) ++ [v]))])
    ∧ (∃ pre, chunk_verses_min_first_with_indexing (verses ++ [v]) min_words chunk_overlap
      = pre ++ [mkChunkIdx (genLoopState min_words chunk_overlap verses [] (sumWC []) ++ [v]),
                mkChunkIdx (takeLast chunk_overlap
                  (genLoopState min_words chunk_overlap verses [] (sumWC []) ++ [v]))])
    ∧ takeLast chunk_overlap
        (genLoopState min_words chunk_overlap verses [] (sumWC []) ++ [v])
        <:+ (genLoopState min_words chunk_overlap verses [] (sumWC []) ++ [v])
    ∧ (takeLast chunk_overlap
        (genLoopState min_words chunk_overlap verses [] (sumWC []) ++ [v])).length
        = min chunk_overlap
            (genLoopState min_words chunk_overlap verses [] (sumWC []) ++ [v]).length := by
  refine ⟨?_, ?_, takeLast_suffix _ _, takeLast_length _ _⟩
  · exact genLoop_last_emission mkChunk min_words chunk_overlap hov v verses [] hemit
  · exact genLoop_last_emission mkChunkIdx min_words chunk_overlap hov v verses [] hemit

/-- C10, witness: a single verse reaching the threshold on the final (and
only) iteration with `chunk_overlap = 1` yields the emitted chunk followed
by a duplicate final chunk of its last verse. -/
theorem C10_trailing_overlap_chunk_witness :
    (∃ pre, chunk_verses_min_first ([] ++ [vGen]) 1 1
      = pre ++ [mkChunk (genLoopState 1 1 [] [] (sumWC []) ++ [vGen]),
                mkChunk (takeLast 1 (genLoopState 1 1 [] [] (sumWC []) ++ [vGen]))])
    ∧ (∃ pre, chunk_verses_min_first_with_indexing ([] ++ [vGen]) 1 1
      = pre ++ [mkChunkIdx (genLoopState 1 1 [] [] (sumWC []) ++ [vGen]),
                mkChunkIdx (takeLast 1 (genLoopState 1 1 [] [] (sumWC []) ++ [vGen]))])
    ∧ takeLast 1 (genLoopState 1 1 [] [] (sumWC []) ++ [vGen])
        <:+ (genLoopState 1 1 [] [] (sumWC []) ++ [vGen])
    ∧ (takeLast 1 (genLoopState 1 1 [] [] (sumWC []) ++ [vGen])).length
        = min 1 (genLoopState 1 1 [] [] (sumWC []) ++ [vGen]).length :=
  C10_trailing_overlap_chunk [] vGen 1 1 (by decide) (by decide)

/-! ## C8: chunk count is monotone as `min_words` decreases -/

theorem sumWC_snoc (l : List Verse) (v : Verse) :
    sumWC (l ++ [v]) = sumWC l + verseWC v := by
  simp [sumWC]

theorem suffix_sumWC_le (l1 l2 : List Verse) (h : l2 <:+ l1) :
    sumWC l2 ≤ sumWC l1 := by
  obtain ⟨t, ht⟩ := h
  rw [← ht, sumWC_append]
  omega

theorem suffix_append_single (l1 l2 : List α) (v : α) (h : l2 <:+ l1) :
    l2 ++ [v] <:+ l1 ++ [v] := by
  obtain ⟨t, ht⟩ := h
  exact ⟨t, by rw [← List.append_assoc, ht]⟩

theorem suffix_of_common (l l1 l2 : List α) (h1 : l1 <:+ l) (h2 : l2 <:+ l)
    (hlen : l1.length ≤ l2.length) : l1 <:+ l2 := by
  rw [← List.reverse_prefix] at h1 h2 ⊢
  exact List.prefix_of_prefix_length_le h1 h2 (by simpa)

theorem suffixes_comparable (l l1 l2 : List α) (h1 : l1 <:+ l) (h2 : l2 <:+ l) :
    l1 <:+ l2 ∨ l2 <:+ l1 := by
  by_cases hlen : l1.length ≤ l2.length
  · exact Or.inl (suffix_of_common l l1 l2 h1 h2 hlen)
  · exact Or.inr (suffix_of_common l l2 l1 h2 h1 (by omega))

theorem takeLast_suffix_mono (n : Nat) (l1 l2 : List α) (h : l2 <:+ l1) :
    takeLast n l2 <:+ takeLast n l1 := by
  have h1 : takeLast n l2 <:+ l1 := (takeLast_suffix n l2).trans h
  have h2 : takeLast n l1 <:+ l1 := takeLast_suffix n l1
  refine suffix_of_common l1 _ _ h1 h2 ?_
  rw [takeLast_length, takeLast_length]
  have := h.length_le
  omega

theorem genLoop_nil {α : Type} (emit : List Verse → α) (mw ov : Nat)
    (cur : List Verse) (cwc : Nat) :
    genLoop emit mw ov [] cur cwc = if cur.isEmpty then [] else [emit cur] := rfl

theorem genLoop_cons_emit {α : Type} (emit : List Verse → α) (mw ov : Nat)
    (v : Verse) (rest cur : List Verse) (cwc : Nat) (h : mw ≤ cwc + verseWC v) :
    genLoop emit mw ov (v :: rest) cur cwc
      = emit (cur ++ [v]) :: genLoop emit mw ov rest
          (if 0 < ov then takeLast ov (cur ++ [v]) else [])
          (if 0 < ov then sumWC (takeLast ov (cur ++ [v])) else 0) := by
  simp only [genLoop, if_pos h]
  by_cases hov : 0 < ov
  · simp only [if_pos hov]
  · simp only [if_neg hov]

theorem genLoop_cons_skip {α : Type} (emit : List Verse → α) (mw ov : Nat)
    (v : Verse) (rest cur : List Verse) (cwc : Nat) (h : ¬ mw ≤ cwc + verseWC v) :
    genLoop emit mw ov (v :: rest) cur cwc
      = genLoop emit mw ov rest (cur ++ [v]) (cwc + verseWC v) := by
  simp only [genLoop, if_neg h]

/-- Two-threshold simulation invariant for the chunking loop. Part one: if
the lower-threshold run's accumulator extends the higher-threshold run's
accumulator (as a suffix), the lower run emits at least as many chunks.
Part two: if the accumulators are suffix-comparable and at least
`min (length cur2) ov` verses sit in the lower run's accumulator, the
lower run is at most one chunk behind. -/
theorem genLoop_count_mono {α : Type} (emit : List Verse → α) (ov mw1 mw2 : Nat)
    (h12 : mw1 ≤ mw2) :
    ∀ rest : List Verse,
      (∀ (cur1 cur2 : List Verse) (cwc1 cwc2 : Nat),
        cwc1 = sumWC cur1 → cwc2 = sumWC cur2 → cur2 <:+ cur1 →
        (genLoop emit mw2 ov rest cur2 cwc2).length
          ≤ (genLoop emit mw1 ov rest cur1 cwc1).length)
      ∧ (∀ (cur1 cur2 : List Verse) (cwc1 cwc2 : Nat),
          cwc1 = sumWC cur1 → cwc2 = sumWC cur2 →
          (cur2 <:+ cur1 ∨ cur1 <:+ cur2) →
          min cur2.length ov ≤ cur1.length →
          (genLoop emit mw2 ov rest cur2 cwc2).length
            ≤ 1 + (genLoop emit mw1 ov rest cur1 cwc1).length) := by
  intro rest
  induction rest with
  | nil =>
    constructor
    · intro cur1 cur2 cwc1 cwc2 h1 h2 hs
      rw [genLoop_nil, genLoop_nil]
      by_cases he2 : cur2.isEmpty
      · simp [he2]
      · have he1 : ¬ cur1.isEmpty := by
          intro hc
          rw [List.isEmpty_iff] at hc he2
          subst hc
          exact he2 (List.suffix_nil.mp hs)
        simp [he1, he2]
    · intro cur1 cur2 cwc1 cwc2 h1 h2 _ _
      rw [genLoop_nil, genLoop_nil]
      by_cases he2 : cur2.isEmpty
      · simp [he2]
      · by_cases he1 : cur1.isEmpty <;> simp [he1, he2]
  | cons v vs ih =>
    obtain ⟨ihA, ihB⟩ := ih
    have hc21 : ∀ cur1 cur2 : List Verse, cur2 <:+ cur1 →
        mw2 ≤ sumWC cur2 + verseWC v → mw1 ≤ sumWC cur1 + verseWC v := by
      intro cur1 cur2 hs h2
      have := suffix_sumWC_le cur1 cur2 hs
      omega
    constructor
    · -- Part one
      intro cur1 cur2 cwc1 cwc2 h1 h2 hs
      subst h1; subst h2
      by_cases c1 : mw1 ≤ sumWC cur1 + verseWC v
      · by_cases c2 : mw2 ≤ sumWC cur2 + verseWC v
        · rw [genLoop_cons_emit _ _ _ _ _ _ _ c1, genLoop_cons_emit _ _ _ _ _ _ _ c2]
          simp only [List.length_cons]
          by_cases hov : 0 < ov
          · simp only [if_pos hov]
            have hsuf : takeLast ov (cur2 ++ [v]) <:+ takeLast ov (cur1 ++ [v]) :=
              takeLast_suffix_mono ov _ _ (suffix_append_single cur1 cur2 v hs)
            exact Nat.succ_le_succ (ihA _ _ _ _ rfl rfl hsuf)
          · simp only [if_neg hov]
            exact Nat.succ_le_succ (ihA [] [] 0 0 rfl rfl (List.suffix_refl []))
        · rw [genLoop_cons_emit _ _ _ _ _ _ _ c1, genLoop_cons_skip _ _ _ _ _ _ _ c2]
          simp only [List.length_cons]
          by_cases hov : 0 < ov
          · simp only [if_pos hov]
            have hX1 : takeLast ov (cur1 ++ [v]) <:+ (cur1 ++ [v]) := takeLast_suffix _ _
            have hs' : (cur2 ++ [v]) <:+ (cur1 ++ [v]) := suffix_append_single cur1 cur2 v hs
            have hcomp := suffixes_comparable (cur1 ++ [v]) (cur2 ++ [v])
              (takeLast ov (cur1 ++ [v])) hs' hX1
            have hmin : min (cur2 ++ [v]).length ov
                ≤ (takeLast ov (cur1 ++ [v])).length := by
              have := hs.length_le
              rw [takeLast_length]
              simp only [List.length_append, List.length_singleton]
              omega
            have := ihB (takeLast ov (cur1 ++ [v])) (cur2 ++ [v]) _ _
              rfl (sumWC_snoc cur2 v).symm hcomp hmin
            omega
          · simp only [if_neg hov]
            have := ihB [] (cur2 ++ [v]) 0 _ rfl (sumWC_snoc cur2 v).symm
              (Or.inr (List.nil_suffix)) (by simp only [List.length_nil]; omega)
            omega
      · have c2 : ¬ mw2 ≤ sumWC cur2 + verseWC v := fun hc => c1 (hc21 cur1 cur2 hs hc)
        rw [genLoop_cons_skip _ _ _ _ _ _ _ c1, genLoop_cons_skip _ _ _ _ _ _ _ c2]
        exact ihA (cur1 ++ [v]) (cur2 ++ [v]) _ _
          (sumWC_snoc cur1 v).symm (sumWC_snoc cur2 v).symm
          (suffix_append_single cur1 cur2 v hs)
    · -- Part two
      intro cur1 cur2 cwc1 cwc2 h1 h2 hcomp hmin
      subst h1; subst h2
      by_cases c1 : mw1 ≤ sumWC cur1 + verseWC v
      · by_cases c2 : mw2 ≤ sumWC cur2 + verseWC v
        · rw [genLoop_cons_emit _ _ _ _ _ _ _ c1, genLoop_cons_emit _ _ _ _ _ _ _ c2]
          simp only [List.length_cons]
          by_cases hov : 0 < ov
          · simp only [if_pos hov]
            have hcomp' : takeLast ov (cur2 ++ [v]) <:+ takeLast ov (cur1 ++ [v])
                ∨ takeLast ov (cur1 ++ [v]) <:+ takeLast ov (cur2 ++ [v]) := by
              rcases hcomp with h | h
              · exact Or.inl (takeLast_suffix_mono ov _ _ (suffix_append_single cur1 cur2 v h))
              · exact Or.inr (takeLast_suffix_mono ov _ _ (suffix_append_single cur2 cur1 v h))
            have hmin' : min (takeLast ov (cur2 ++ [v])).length ov
                ≤ (takeLast ov (cur1 ++ [v])).length := by
              rw [takeLast_length, takeLast_length]
              simp only [List.length_append, List.length_singleton]
              omega
            have := ihB _ _ _ _ rfl rfl hcomp' hmin'
            omega
          · simp only [if_neg hov]
            have := ihB [] [] 0 0 rfl rfl (Or.inl (List.suffix_refl [])) (by simp)
            omega
        · rw [genLoop_cons_emit _ _ _ _ _ _ _ c1, genLoop_cons_skip _ _ _ _ _ _ _ c2]
          simp only [List.length_cons]
          by_cases hov : 0 < ov
          · simp only [if_pos hov]
            have hX1 : takeLast ov (cur1 ++ [v]) <:+ (cur1 ++ [v]) := takeLast_suffix _ _
            have hcomp' : (cur2 ++ [v]) <:+ takeLast ov (cur1 ++ [v])
                ∨ takeLast ov (cur1 ++ [v]) <:+ (cur2 ++ [v]) := by
              rcases hcomp with h | h
              · exact suffixes_comparable (cur1 ++ [v]) (cur2 ++ [v])
                  (takeLast ov (cur1 ++ [v])) (suffix_append_single cur1 cur2 v h) hX1
              · exact Or.inr (hX1.trans (suffix_append_single cur2 cur1 v h))
            have hmin' : min (cur2 ++ [v]).length ov
                ≤ (takeLast ov (cur1 ++ [v])).length := by
              rw [takeLast_length]
              simp only [List.length_append, List.length_singleton]
              omega
            have := ihB (takeLast ov (cur1 ++ [v])) (cur2 ++ [v]) _ _
              rfl (sumWC_snoc cur2 v).symm hcomp' hmin'
            omega
          · simp only [if_neg hov]
            have := ihB [] (cur2 ++ [v]) 0 _ rfl (sumWC_snoc cur2 v).symm
              (Or.inr (List.nil_suffix)) (by simp only [List.length_nil]; omega)
            omega
      · by_cases c2 : mw2 ≤ sumWC cur2 + verseWC v
        · rw [genLoop_cons_skip _ _ _ _ _ _ _ c1, genLoop_cons_emit _ _ _ _ _ _ _ c2]
          simp only [List.length_cons]
          by_cases hov : 0 < ov
          · simp only [if_pos hov]
            have hX2 : takeLast ov (cur2 ++ [v]) <:+ (cur1 ++ [v]) := by
              rcases hcomp with h | h
              · exact (takeLast_suffix ov (cur2 ++ [v])).trans
                  (suffix_append_single cur1 cur2 v h)
              · refine suffix_of_common (cur2 ++ [v]) _ _
                  (takeLast_suffix ov (cur2 ++ [v]))
                  (suffix_append_single cur2 cur1 v h) ?_
                rw [takeLast_length]
                simp only [List.length_append, List.length_singleton]
                omega
            have := ihA (cur1 ++ [v]) (takeLast ov (cur2 ++ [v])) _ _
              (sumWC_snoc cur1 v).symm rfl hX2
            omega
          · simp only [if_neg hov]
            have := ihA (cur1 ++ [v]) [] _ 0 (sumWC_snoc cur1 v).symm rfl
              (List.nil_suffix)
            omega
        · rw [genLoop_cons_skip _ _ _ _ _ _ _ c1, genLoop_cons_skip _ _ _ _ _ _ _ c2]
          have hcomp' : (cur2 ++ [v]) <:+ (cur1 ++ [v]) ∨ (cur1 ++ [v]) <:+ (cur2 ++ [v]) := by
            rcases hcomp with h | h
            · exact Or.inl (suffix_append_single cur1 cur2 v h)
            · exact Or.inr (suffix_append_single cur2 cur1 v h)
          refine ihB (cur1 ++ [v]) (cur2 ++ [v]) _ _
            (sumWC_snoc cur1 v).symm (sumWC_snoc cur2 v).symm hcomp' ?_
          simp only [List.length_append, List.length_singleton]
          omega

/-- C8: for every verse list and every fixed `chunk_overlap`, the number
of chunks produced by `chunk_verses_min_first` is monotone non-decreasing
as `min_words` decreases: if `min_words1 ≤ min_words2` then the chunk
count at `min_words1` is at least the chunk count at `min_words2`. -/
theorem C8_chunk_count_monotone (verses : List Verse) (chunk_overlap : Nat)
    (min_words1 min_words2 : Nat) (h : min_words1 ≤ min_words2) :
    (chunk_verses_min_first verses min_words2 chunk_overlap).length
      ≤ (chunk_verses_min_first verses min_words1 chunk_overlap).length :=
  (genLoop_count_mono mkChunk chunk_overlap min_words1 min_words2 h verses).1
    [] [] 0 0 rfl rfl (List.suffix_refl [])

/-- C8, witness: the theorem applied to a concrete verse list and
thresholds 1 ≤ 3. -/
theorem C8_chunk_count_monotone_witness :
    (chunk_verses_min_first [vGen, vGen] 3 1).length
      ≤ (chunk_verses_min_first [vGen, vGen] 1 1).length :=
  C8_chunk_count_monotone [vGen, vGen] 1 1 3 (by decide)

end BibleRag
